import Mathlib

/-!
Shallow embedding of the chunking core of
`src/lambda/document-processor/extract-text/index.py` — the functions
`chunk_text`, `build_page_map` and `get_page_number_for_position` — together
with proofs of the windowing, coverage, page-map and page-lookup properties.

Python integers are `Int` (window positions can go negative when the
configuration is invalid), character offsets are `Nat` (they are string
lengths and sums of string lengths), dictionary reads with a default
(`d.get(k, v)`) are `Option.getD`, and the `while` loop of `chunk_text` is a
fuel-indexed recursion: `none` means the fuel ran out, i.e. the Python loop
is still running after that many iterations.
-/

namespace ExtractText

/-- One entry of `pages_data`: the `text` and `pageNumber` keys of a page
dictionary (`Option` models a possibly missing key, read with the defaults
used at the `dict.get` call sites). -/
structure PageData where
  text : Option String
  pageNumber : Option Int
deriving DecidableEq, Repr

/-- One entry of the list built by `build_page_map`:
`{'start_pos': …, 'end_pos': …, 'page_number': …}`. -/
structure PageInfo where
  start_pos : Nat
  end_pos : Nat
  page_number : Int
deriving DecidableEq, Repr

/-- The document metadata dictionary, read by `chunk_text` through
`metadata.get(key, default)`. -/
structure MetadataIn where
  filename : Option String
  uploadedBy : Option String
  uploadedAt : Option Int
  pageCount : Option Int
deriving DecidableEq, Repr

/-- The metadata snapshot stored inside every chunk dictionary. -/
structure ChunkMeta where
  filename : String
  uploadedBy : String
  uploadedAt : Int
  pageCount : Int
deriving DecidableEq, Repr

/-- A chunk dictionary as appended to `chunks` by `chunk_text`. -/
structure Chunk where
  chunkId : String
  documentId : String
  text : String
  chunkIndex : Nat
  pageNumber : Int
  tokenCount : Nat
  startToken : Int
  endToken : Int
  metadata : ChunkMeta
deriving DecidableEq, Repr

/-- The `for page in pages_data` loop of `build_page_map`, with the running
offset `current_pos` made explicit.  `current_pos += 2` (the `'\n\n'`
separator) happens only when `current_pos > 0`. -/
def buildPageMapFrom (current_pos : Nat) : List PageData → List PageInfo
  | [] => []
  | page :: rest =>
    let pos := if current_pos > 0 then current_pos + 2 else current_pos
    let e := pos + (page.text.getD "").length
    { start_pos := pos, end_pos := e, page_number := page.pageNumber.getD 1 } ::
      buildPageMapFrom e rest

/-- `build_page_map(pages_data)`. -/
def build_page_map (pages_data : List PageData) : List PageInfo :=
  buildPageMapFrom 0 pages_data

/-- The scan loop of `get_page_number_for_position`: the page number of the
first span with `start_pos <= char_pos < end_pos`, if any. -/
def findPage (char_pos : Nat) : List PageInfo → Option Int
  | [] => none
  | p :: rest =>
    if p.start_pos ≤ char_pos ∧ char_pos < p.end_pos then some p.page_number
    else findPage char_pos rest

/-- `get_page_number_for_position(char_pos, page_map)`: first matching span,
else the last span's page number, else `1`. -/
def get_page_number_for_position (char_pos : Nat) (page_map : List PageInfo) : Int :=
  match findPage char_pos page_map with
  | some n => n
  | none =>
    match page_map.getLast? with
    | some p => p.page_number
    | none => 1

/-- Normalisation of one bound of a Python slice `l[a:b]` for a list of
length `n`: a negative bound counts from the end (clamped at `0`), a
non-negative one is clamped at `n`. -/
def pyBound (n : Nat) (i : Int) : Nat :=
  if i < 0 then (n + i).toNat else min i.toNat n

/-- Python slice `l[a:b]` (step `1`). -/
def pySlice (l : List α) (a b : Int) : List α :=
  (l.take (pyBound l.length b)).drop (pyBound l.length a)

/-- The inputs of one `chunk_text` call: the text, the tokenizer
(`encoding.encode` / `encoding.decode`, injected as functions), the page
data, the document id, the metadata and the `chunk_size` / `overlap`
configuration. -/
structure ChunkCtx where
  text : String
  encode : String → List Int
  decode : List Int → String
  pages_data : List PageData
  document_id : String
  metadata : MetadataIn
  chunk_size : Int
  overlap : Int

/-- `tokens = encoding.encode(text)`. -/
def ChunkCtx.tokens (c : ChunkCtx) : List Int := c.encode c.text

/-- `total_tokens = len(tokens)`. -/
def ChunkCtx.total_tokens (c : ChunkCtx) : Int := (c.tokens.length : Int)

/-- The chunk dictionary built by one iteration of the `chunk_text` loop:
slice the tokens, decode them, locate the page via the length of the
decoded leading tokens, and attach id, index and metadata. -/
def mkChunk (c : ChunkCtx) (start_pos end_pos : Int) (chunk_index : Nat) : Chunk :=
  let chunk_tokens := pySlice c.tokens start_pos end_pos
  let char_pos := (c.decode (pySlice c.tokens 0 start_pos)).length
  { chunkId := c.document_id ++ "#chunk#" ++ toString chunk_index
    documentId := c.document_id
    text := c.decode chunk_tokens
    chunkIndex := chunk_index
    pageNumber := get_page_number_for_position char_pos (build_page_map c.pages_data)
    tokenCount := chunk_tokens.length
    startToken := start_pos
    endToken := end_pos
    metadata :=
      { filename := c.metadata.filename.getD "unknown.pdf"
        uploadedBy := c.metadata.uploadedBy.getD "system"
        uploadedAt := c.metadata.uploadedAt.getD 0
        pageCount := c.metadata.pageCount.getD 0 } }

/-- The `while start_pos < total_tokens` loop of `chunk_text`, fuel-indexed:
each iteration emits `mkChunk`, stops after the chunk whose `end_pos`
reaches `total_tokens`, and otherwise advances `start_pos` by
`chunk_size - overlap`.  `none` means the fuel was exhausted with the loop
still running. -/
def chunkLoop (c : ChunkCtx) : Nat → Int → Nat → Option (List Chunk)
  | 0, _, _ => none
  | fuel + 1, start_pos, chunk_index =>
    if start_pos < c.total_tokens then
      let end_pos := min (start_pos + c.chunk_size) c.total_tokens
      let chunk := mkChunk c start_pos end_pos chunk_index
      if c.total_tokens ≤ end_pos then some [chunk]
      else
        match chunkLoop c fuel (start_pos + c.chunk_size - c.overlap) (chunk_index + 1) with
        | some rest => some (chunk :: rest)
        | none => none
    else some []

/-- `chunk_text`: run the loop from `start_pos = 0`, `chunk_index = 0`.
Fuel `len(tokens) + 1` is enough whenever `overlap < chunk_size` (proved
below); `none` therefore means the Python loop does not finish within
`len(tokens) + 1` iterations. -/
def chunk_text (c : ChunkCtx) : Option (List Chunk) :=
  chunkLoop c (c.tokens.length + 1) 0 0

/-- The step of the window loop, `chunk_size - overlap`. -/
def ChunkCtx.step (c : ChunkCtx) : Int := c.chunk_size - c.overlap

/-- Start of the `k`-th window when the loop begins at `start`. -/
def winStart (c : ChunkCtx) (start : Int) (k : Nat) : Int := start + k * c.step

/-- End of the `k`-th window when the loop begins at `start`. -/
def winEnd (c : ChunkCtx) (start : Int) (k : Nat) : Int :=
  min (winStart c start k + c.chunk_size) c.total_tokens

/-- The chunk emitted for the `k`-th window. -/
def emitChunk (c : ChunkCtx) (start : Int) (idx k : Nat) : Chunk :=
  mkChunk c (winStart c start k) (winEnd c start k) (idx + k)

/-- The page lookup as worded by the specification (§4.2): the page number of
the first span whose half-open interval contains `offset`, found with
`List.find?`; if none contains it, the last span's page number, or `1` for an
empty index.  Compared against `get_page_number_for_position` below. -/
def pageForOffset_spec (offset : Nat) (index : List PageInfo) : Int :=
  match index.find? (fun p => decide (p.start_pos ≤ offset) && decide (offset < p.end_pos)) with
  | some p => p.page_number
  | none =>
    match index.getLast? with
    | some p => p.page_number
    | none => 1

/-- The `chunk_text` loop, started at `start_pos = 0`, finishes after some
finite number of iterations. -/
def loopHalts (c : ChunkCtx) : Prop :=
  ∃ fuel l, chunkLoop c fuel 0 0 = some l

/-- A concrete `chunk_text` input for evaluating the theorems: a stub
tokenizer that returns the given token list and decodes everything to `""`,
no page data, and the given configuration. -/
def sampleCtx (toks : List Int) (cs ov : Int) : ChunkCtx :=
  { text := "doc", encode := fun _ => toks, decode := fun _ => ""
    pages_data := [], document_id := "doc-1", metadata := ⟨none, none, none, none⟩
    chunk_size := cs, overlap := ov }

/-- The chunk that `chunk_text` produces on a `sampleCtx` input for window
`[s, e)` at index `i` with `tc` tokens. -/
def sampleChunk (i tc : Nat) (s e : Int) : Chunk :=
  { chunkId := "doc-1#chunk#" ++ toString i
    documentId := "doc-1"
    text := ""
    chunkIndex := i
    pageNumber := 1
    tokenCount := tc
    startToken := s
    endToken := e
    metadata := { filename := "unknown.pdf", uploadedBy := "system", uploadedAt := 0, pageCount := 0 } }

theorem pyBound_of_nonneg {n : Nat} {i : Int} (h0 : 0 ≤ i) (h : i ≤ (n : Int)) :
    pyBound n i = i.toNat := by
  unfold pyBound
  rw [if_neg (by omega)]
  omega

theorem pySlice_length {α : Type} {l : List α} {a b : Int}
    (h0 : 0 ≤ a) (hab : a ≤ b) (hb : b ≤ (l.length : Int)) :
    (pySlice l a b).length = (b - a).toNat := by
  unfold pySlice
  rw [pyBound_of_nonneg (le_trans h0 hab) hb, pyBound_of_nonneg h0 (le_trans hab hb)]
  simp only [List.length_drop, List.length_take]
  omega

@[simp] theorem mkChunk_startToken (c : ChunkCtx) (a b : Int) (i : Nat) :
    (mkChunk c a b i).startToken = a := rfl

@[simp] theorem mkChunk_endToken (c : ChunkCtx) (a b : Int) (i : Nat) :
    (mkChunk c a b i).endToken = b := rfl

@[simp] theorem mkChunk_chunkIndex (c : ChunkCtx) (a b : Int) (i : Nat) :
    (mkChunk c a b i).chunkIndex = i := rfl

@[simp] theorem mkChunk_chunkId (c : ChunkCtx) (a b : Int) (i : Nat) :
    (mkChunk c a b i).chunkId = c.document_id ++ "#chunk#" ++ toString i := rfl

@[simp] theorem mkChunk_tokenCount (c : ChunkCtx) (a b : Int) (i : Nat) :
    (mkChunk c a b i).tokenCount = (pySlice c.tokens a b).length := rfl

@[simp] theorem winStart_zero (c : ChunkCtx) (start : Int) : winStart c start 0 = start := by
  simp [winStart]

theorem winStart_succ (c : ChunkCtx) (start : Int) (k : Nat) :
    winStart c start (k + 1) = winStart c (start + c.step) k := by
  unfold winStart
  push_cast
  ring

theorem winEnd_succ (c : ChunkCtx) (start : Int) (k : Nat) :
    winEnd c start (k + 1) = winEnd c (start + c.step) k := by
  unfold winEnd
  rw [winStart_succ]

theorem emitChunk_succ (c : ChunkCtx) (start : Int) (idx k : Nat) :
    emitChunk c start idx (k + 1) = emitChunk c (start + c.step) (idx + 1) k := by
  unfold emitChunk
  rw [winStart_succ, winEnd_succ]
  congr 1
  omega

theorem winStart_add_one (c : ChunkCtx) (start : Int) (k : Nat) :
    winStart c start (k + 1) = winStart c start k + c.step := by
  unfold winStart
  push_cast
  ring

theorem winStart_nonneg (c : ChunkCtx) {start : Int} (k : Nat) (hstep : 0 ≤ c.step)
    (hstart : 0 ≤ start) : 0 ≤ winStart c start k := by
  unfold winStart
  have : (0 : Int) ≤ (k : Int) * c.step := mul_nonneg (by exact_mod_cast Nat.zero_le k) hstep
  omega

theorem winStart_mono (c : ChunkCtx) (start : Int) (hstep : 0 < c.step) {j k : Nat}
    (hjk : j ≤ k) : winStart c start j ≤ winStart c start k := by
  unfold winStart
  have hj : (j : Int) ≤ (k : Int) := by exact_mod_cast hjk
  nlinarith [mul_le_mul_of_nonneg_right hj (le_of_lt hstep)]

/-- The loop of `chunk_text` finishes within `total_tokens - start_pos + 1`
iterations whenever the step `chunk_size - overlap` is positive. -/
theorem chunkLoop_total (c : ChunkCtx) (h1 : c.overlap < c.chunk_size) :
    ∀ fuel : Nat, ∀ start : Int, ∀ idx : Nat,
      (c.total_tokens - start).toNat < fuel →
      ∃ l, chunkLoop c fuel start idx = some l := by
  intro fuel
  induction fuel with
  | zero => intro start idx h; omega
  | succ fuel ih =>
    intro start idx h
    rw [chunkLoop]
    by_cases hs : start < c.total_tokens
    · rw [if_pos hs]
      by_cases he : c.total_tokens ≤ min (start + c.chunk_size) c.total_tokens
      · rw [if_pos he]
        exact ⟨_, rfl⟩
      · rw [if_neg he]
        obtain ⟨l, hl⟩ := ih (start + c.chunk_size - c.overlap) (idx + 1) (by omega)
        rw [hl]
        exact ⟨_, rfl⟩
    · rw [if_neg hs]
      exact ⟨_, rfl⟩

/-- Whatever the configuration, a finished run of the loop numbers its chunks
consecutively from the starting index and stamps each `chunkId` from the
document id and the chunk's own index. -/
theorem chunkLoop_indices (c : ChunkCtx) :
    ∀ fuel : Nat, ∀ start : Int, ∀ idx : Nat, ∀ l : List Chunk,
      chunkLoop c fuel start idx = some l →
      l.map Chunk.chunkIndex = List.range' idx l.length ∧
      ∀ ch ∈ l, ch.chunkId = c.document_id ++ "#chunk#" ++ toString ch.chunkIndex := by
  intro fuel
  induction fuel with
  | zero => intro start idx l h; simp [chunkLoop] at h
  | succ fuel ih =>
    intro start idx l h
    rw [chunkLoop] at h
    by_cases hs : start < c.total_tokens
    · rw [if_pos hs] at h
      by_cases he : c.total_tokens ≤ min (start + c.chunk_size) c.total_tokens
      · rw [if_pos he] at h
        obtain rfl : _ = l := Option.some.inj h
        refine ⟨by simp, ?_⟩
        intro ch hch
        simp only [List.mem_singleton] at hch
        subst hch
        simp
      · rw [if_neg he] at h
        cases hrec : chunkLoop c fuel (start + c.chunk_size - c.overlap) (idx + 1) with
        | none => rw [hrec] at h; simp at h
        | some rest =>
          rw [hrec] at h
          obtain rfl : _ = l := Option.some.inj h
          obtain ⟨hmap, hid⟩ := ih _ _ _ hrec
          constructor
          · simp only [List.map_cons, List.length_cons, mkChunk_chunkIndex, hmap,
              List.range'_succ]
          · intro ch hch
            rcases List.mem_cons.mp hch with hch | hch
            · subst hch; simp
            · exact hid ch hch
    · rw [if_neg hs] at h
      obtain rfl : _ = l := Option.some.inj h
      exact ⟨by simp, by intro ch hch; simp at hch⟩

/-- With `overlap >= chunk_size` and more tokens than `chunk_size`, the loop
of `chunk_text` never finishes: from any non-positive `start_pos` it runs
forever (the start position never increases). -/
theorem chunkLoop_none (c : ChunkCtx) (hstep : c.chunk_size ≤ c.overlap)
    (hcs : c.chunk_size < c.total_tokens) (hpos : 0 < c.total_tokens) :
    ∀ fuel : Nat, ∀ start : Int, ∀ idx : Nat, start ≤ 0 →
      chunkLoop c fuel start idx = none := by
  intro fuel
  induction fuel with
  | zero => intro start idx hs; rfl
  | succ fuel ih =>
    intro start idx hs
    rw [chunkLoop, if_pos (by omega)]
    rw [if_neg (by omega)]
    rw [ih (start + c.chunk_size - c.overlap) (idx + 1) (by omega)]

/-- Closed form of a finished run of the `chunk_text` loop under a valid
configuration: the result is the chunks of the windows
`[start + k*step, min (start + k*step + chunk_size) total)` for
`k = 0, …, n-1`, where every window but the last stops short of
`total_tokens` and the last one reaches it. -/
theorem chunkLoop_closed_form (c : ChunkCtx) (h0 : 0 ≤ c.overlap)
    (h1 : c.overlap < c.chunk_size) :
    ∀ fuel : Nat, ∀ start : Int, ∀ idx : Nat, ∀ l : List Chunk,
      0 ≤ start → start < c.total_tokens →
      chunkLoop c fuel start idx = some l →
      ∃ n : Nat, 1 ≤ n ∧ l = (List.range n).map (emitChunk c start idx) ∧
        (∀ k : Nat, k + 1 < n → winStart c start k + c.chunk_size < c.total_tokens) ∧
        c.total_tokens ≤ winStart c start (n - 1) + c.chunk_size ∧
        winStart c start (n - 1) < c.total_tokens := by
  have hstep : 0 < c.step := by unfold ChunkCtx.step; omega
  intro fuel
  induction fuel with
  | zero => intro start idx l _ _ h; simp [chunkLoop] at h
  | succ fuel ih =>
    intro start idx l hs0 hst h
    rw [chunkLoop, if_pos hst] at h
    by_cases he : c.total_tokens ≤ min (start + c.chunk_size) c.total_tokens
    · rw [if_pos he] at h
      obtain rfl : _ = l := Option.some.inj h
      refine ⟨1, le_refl 1, ?_, by omega, by simpa using (by omega : c.total_tokens ≤ start + c.chunk_size), by simpa using hst⟩
      have h1 : (List.range 1) = [0] := rfl
      rw [h1, List.map_cons, List.map_nil]
      unfold emitChunk winEnd
      rw [winStart_zero, Nat.add_zero]
    · rw [if_neg he] at h
      cases hrec : chunkLoop c fuel (start + c.chunk_size - c.overlap) (idx + 1) with
      | none => rw [hrec] at h; simp at h
      | some rest =>
        rw [hrec] at h
        obtain rfl : _ = l := Option.some.inj h
        have hstart' : start + c.chunk_size - c.overlap = start + c.step := by
          unfold ChunkCtx.step; ring
        rw [hstart'] at hrec
        obtain ⟨m, hm1, hmeq, hcond, hlastm, hltm⟩ :=
          ih (start + c.step) (idx + 1) rest (by omega)
            (by unfold ChunkCtx.step at hstep ⊢; omega) hrec
        obtain ⟨m', rfl⟩ : ∃ m', m = m' + 1 := ⟨m - 1, by omega⟩
        refine ⟨m' + 2, by omega, ?_, ?_, ?_, ?_⟩
        · rw [List.range_succ_eq_map, List.map_cons, List.map_map]
          have hhead : mkChunk c start (min (start + c.chunk_size) c.total_tokens) idx =
              emitChunk c start idx 0 := by
            simp [emitChunk, winEnd]
          rw [hhead, hmeq]
          congr 1
          apply List.map_congr_left
          intro k _
          rw [Function.comp_apply, ← emitChunk_succ]
        · intro k hk
          cases k with
          | zero => simp; omega
          | succ j =>
            rw [winStart_succ]
            exact hcond j (by omega)
        · have : m' + 2 - 1 = (m' + 1 - 1) + 1 := by omega
          rw [this, winStart_succ]
          exact hlastm
        · have : m' + 2 - 1 = (m' + 1 - 1) + 1 := by omega
          rw [this, winStart_succ]
          exact hltm

@[simp] theorem emitChunk_startToken (c : ChunkCtx) (start : Int) (idx k : Nat) :
    (emitChunk c start idx k).startToken = winStart c start k := rfl

@[simp] theorem emitChunk_endToken (c : ChunkCtx) (start : Int) (idx k : Nat) :
    (emitChunk c start idx k).endToken = winEnd c start k := rfl

@[simp] theorem emitChunk_chunkIndex (c : ChunkCtx) (start : Int) (idx k : Nat) :
    (emitChunk c start idx k).chunkIndex = idx + k := rfl

theorem winEnd_le (c : ChunkCtx) (start : Int) (k : Nat) :
    winEnd c start k ≤ c.total_tokens := min_le_right _ _

theorem winStart_le_winEnd (c : ChunkCtx) {start : Int} {k : Nat} (hcs : 0 ≤ c.chunk_size)
    (hlt : winStart c start k ≤ c.total_tokens) :
    winStart c start k ≤ winEnd c start k :=
  le_min (by omega) hlt

theorem emitChunk_tokenCount (c : ChunkCtx) {start : Int} {idx k : Nat}
    (hcs : 0 ≤ c.chunk_size) (hs : 0 ≤ winStart c start k)
    (hlt : winStart c start k ≤ c.total_tokens) :
    ((emitChunk c start idx k).tokenCount : Int) = winEnd c start k - winStart c start k := by
  have hle : winStart c start k ≤ winEnd c start k := winStart_le_winEnd c hcs hlt
  have hend : winEnd c start k ≤ (c.tokens.length : Int) := winEnd_le c start k
  unfold emitChunk
  rw [mkChunk_tokenCount, pySlice_length hs hle hend]
  omega

theorem get_range_map {α : Type} (f : Nat → α) {n k : Nat}
    (hk : k < ((List.range n).map f).length) :
    ((List.range n).map f).get ⟨k, hk⟩ = f k := by
  simp at hk
  simp [List.get_eq_getElem, List.getElem_map, List.getElem_range]

/-- `chunk_text` with zero tokens returns the empty chunk list at once. -/
theorem chunk_text_of_tokens_nil (c : ChunkCtx) (h : c.tokens = []) :
    chunk_text c = some [] := by
  rw [chunk_text, h, chunkLoop]
  rw [if_neg (by simp [ChunkCtx.total_tokens, h])]

/-- Closed form of a full `chunk_text` run under a valid configuration with a
non-empty token sequence. -/
theorem chunk_text_closed_form (c : ChunkCtx) (h0 : 0 ≤ c.overlap)
    (h1 : c.overlap < c.chunk_size) (hpos : 0 < c.total_tokens) (l : List Chunk)
    (hl : chunk_text c = some l) :
    ∃ n : Nat, 1 ≤ n ∧ l = (List.range n).map (emitChunk c 0 0) ∧
      (∀ k : Nat, k + 1 < n → winStart c 0 k + c.chunk_size < c.total_tokens) ∧
      c.total_tokens ≤ winStart c 0 (n - 1) + c.chunk_size ∧
      (∀ k : Nat, k < n → winStart c 0 k < c.total_tokens) := by
  obtain ⟨n, hn1, hneq, hcond, hlast, hlt⟩ :=
    chunkLoop_closed_form c h0 h1 (c.tokens.length + 1) 0 0 l le_rfl hpos hl
  have hstep : 0 < c.step := by unfold ChunkCtx.step; omega
  refine ⟨n, hn1, hneq, hcond, hlast, ?_⟩
  intro k hk
  exact lt_of_le_of_lt (winStart_mono c 0 hstep (by omega)) hlt

/-- C1: for every valid configuration (`0 ≤ overlap < chunkSize`) and every
`totalTokens > chunkSize`, the windows produced by `chunk_text` satisfy the
overlap law: chunk `i+1` starts at chunk `i`'s start plus
`chunkSize - overlap`, and chunk `i`'s `endToken` minus chunk `i+1`'s
`startToken` equals `overlap` for non-final pairs, and is at most `overlap`
on the final pair. -/
theorem c1_overlap_law (c : ChunkCtx) (h0 : 0 ≤ c.overlap)
    (h1 : c.overlap < c.chunk_size) (h2 : c.chunk_size < c.total_tokens)
    (l : List Chunk) (hl : chunk_text c = some l) :
    ∀ k : Nat, ∀ hk : k + 1 < l.length,
      (l.get ⟨k + 1, hk⟩).startToken =
        (l.get ⟨k, by omega⟩).startToken + c.chunk_size - c.overlap ∧
      (k + 2 < l.length →
        (l.get ⟨k, by omega⟩).endToken - (l.get ⟨k + 1, hk⟩).startToken = c.overlap) ∧
      (k + 2 = l.length →
        (l.get ⟨k, by omega⟩).endToken - (l.get ⟨k + 1, hk⟩).startToken ≤ c.overlap) := by
  have hpos : 0 < c.total_tokens := by omega
  obtain ⟨n, hn1, rfl, hcond, hlast, hstarts⟩ := chunk_text_closed_form c h0 h1 hpos l hl
  intro k hk
  simp only [List.length_map, List.length_range] at hk ⊢
  simp only [get_range_map, emitChunk_startToken, emitChunk_endToken]
  have e1 : winStart c 0 (k + 1) = winStart c 0 k + c.step := winStart_add_one c 0 k
  have e2 : winEnd c 0 k = winStart c 0 k + c.chunk_size := by
    unfold winEnd
    exact min_eq_left (le_of_lt (hcond k hk))
  unfold ChunkCtx.step at e1
  refine ⟨by omega, fun _ => by omega, fun _ => by omega⟩

/-- C1 witness: a valid configuration (`chunkSize = 3`, `overlap = 1`) with
`5 > 3` tokens, on which `chunk_text` returns two chunks obeying the overlap
law. -/
theorem c1_overlap_law_witness :
    (0 : Int) ≤ (sampleCtx [10, 11, 12, 13, 14] 3 1).overlap ∧
    (sampleCtx [10, 11, 12, 13, 14] 3 1).overlap <
      (sampleCtx [10, 11, 12, 13, 14] 3 1).chunk_size ∧
    (sampleCtx [10, 11, 12, 13, 14] 3 1).chunk_size <
      (sampleCtx [10, 11, 12, 13, 14] 3 1).total_tokens ∧
    chunk_text (sampleCtx [10, 11, 12, 13, 14] 3 1) =
      some [sampleChunk 0 3 0 3, sampleChunk 1 3 2 5] ∧
    (sampleChunk 1 3 2 5).startToken = (sampleChunk 0 3 0 3).startToken + 3 - 1 ∧
    (sampleChunk 0 3 0 3).endToken - (sampleChunk 1 3 2 5).startToken ≤ 1 := by
  have h := c1_overlap_law (sampleCtx [10, 11, 12, 13, 14] 3 1) (by decide) (by decide)
    (by decide) [sampleChunk 0 3 0 3, sampleChunk 1 3 2 5] (by decide) 0 (by decide)
  exact ⟨by decide, by decide, by decide, by decide, h.1, h.2.2 (by decide)⟩

/-- C2: for every valid configuration and input, every chunk of `chunk_text`
has `tokenCount = endToken - startToken ≤ chunkSize`, with equality for
every chunk except possibly the last. -/
theorem c2_bounded_size (c : ChunkCtx) (h0 : 0 ≤ c.overlap)
    (h1 : c.overlap < c.chunk_size) (l : List Chunk) (hl : chunk_text c = some l) :
    ∀ k : Nat, ∀ hk : k < l.length,
      ((l.get ⟨k, hk⟩).tokenCount : Int) =
        (l.get ⟨k, hk⟩).endToken - (l.get ⟨k, hk⟩).startToken ∧
      ((l.get ⟨k, hk⟩).tokenCount : Int) ≤ c.chunk_size ∧
      (k + 1 < l.length → ((l.get ⟨k, hk⟩).tokenCount : Int) = c.chunk_size) := by
  by_cases hpos : 0 < c.total_tokens
  · obtain ⟨n, hn1, rfl, hcond, hlast, hstarts⟩ := chunk_text_closed_form c h0 h1 hpos l hl
    intro k hk
    simp only [List.length_map, List.length_range] at hk ⊢
    simp only [get_range_map, emitChunk_startToken, emitChunk_endToken]
    have hstep : 0 ≤ c.step := by unfold ChunkCtx.step; omega
    have htc := @emitChunk_tokenCount c 0 0 k (by omega)
      (winStart_nonneg c k hstep le_rfl) (le_of_lt (hstarts k hk))
    have hmin : winEnd c 0 k ≤ winStart c 0 k + c.chunk_size := min_le_left _ _
    refine ⟨htc, by omega, fun hk1 => ?_⟩
    have e2 : winEnd c 0 k = winStart c 0 k + c.chunk_size := by
      unfold winEnd
      exact min_eq_left (le_of_lt (hcond k hk1))
    omega
  · have hnil : c.tokens = [] := by
      have : c.tokens.length = 0 := by
        unfold ChunkCtx.total_tokens at hpos
        omega
      exact List.length_eq_zero.mp this
    rw [chunk_text_of_tokens_nil c hnil] at hl
    obtain rfl : ([] : List Chunk) = l := Option.some.inj hl
    intro k hk
    simp at hk

/-- C2 witness: on the valid configuration `chunkSize = 3`, `overlap = 1`
with 5 tokens, the first chunk has `tokenCount = 3 = chunkSize` and the
bound holds. -/
theorem c2_bounded_size_witness :
    (0 : Int) ≤ (sampleCtx [10, 11, 12, 13, 14] 3 1).overlap ∧
    (sampleCtx [10, 11, 12, 13, 14] 3 1).overlap <
      (sampleCtx [10, 11, 12, 13, 14] 3 1).chunk_size ∧
    chunk_text (sampleCtx [10, 11, 12, 13, 14] 3 1) =
      some [sampleChunk 0 3 0 3, sampleChunk 1 3 2 5] ∧
    ((sampleChunk 0 3 0 3).tokenCount : Int) =
      (sampleChunk 0 3 0 3).endToken - (sampleChunk 0 3 0 3).startToken ∧
    ((sampleChunk 0 3 0 3).tokenCount : Int) ≤ 3 := by
  have h := c2_bounded_size (sampleCtx [10, 11, 12, 13, 14] 3 1) (by decide) (by decide)
    [sampleChunk 0 3 0 3, sampleChunk 1 3 2 5] (by decide) 0 (by decide)
  exact ⟨by decide, by decide, by decide, h.1, h.2.1⟩

/-- C3: for every valid configuration and `totalTokens > 0`, the chunk
ranges of `chunk_text` cover `[0, totalTokens)` with no gaps: the first
chunk starts at `0`, the last chunk ends at `totalTokens`, and each chunk
starts no later than the previous chunk's end. -/
theorem c3_coverage (c : ChunkCtx) (h0 : 0 ≤ c.overlap)
    (h1 : c.overlap < c.chunk_size) (hpos : 0 < c.total_tokens)
    (l : List Chunk) (hl : chunk_text c = some l) :
    (∃ ch0, l.head? = some ch0 ∧ ch0.startToken = 0) ∧
    (∃ chN, l.getLast? = some chN ∧ chN.endToken = c.total_tokens) ∧
    (∀ k : Nat, ∀ hk : k + 1 < l.length,
      (l.get ⟨k + 1, hk⟩).startToken ≤ (l.get ⟨k, by omega⟩).endToken) := by
  obtain ⟨n, hn1, rfl, hcond, hlast, hstarts⟩ := chunk_text_closed_form c h0 h1 hpos l hl
  obtain ⟨n', rfl⟩ : ∃ n', n = n' + 1 := ⟨n - 1, by omega⟩
  refine ⟨⟨emitChunk c 0 0 0, ?_, ?_⟩, ⟨emitChunk c 0 0 n', ?_, ?_⟩, ?_⟩
  · rw [List.range_succ_eq_map]
    simp
  · simp [emitChunk_startToken]
  · rw [List.range_succ, List.map_append]
    simp only [List.map_cons, List.map_nil]
    rw [List.getLast?_append]
    rfl
  · simp only [emitChunk_endToken]
    unfold winEnd
    refine min_eq_right ?_
    simpa using hlast
  · intro k hk
    simp only [List.length_map, List.length_range] at hk ⊢
    simp only [get_range_map, emitChunk_startToken, emitChunk_endToken]
    have e1 : winStart c 0 (k + 1) = winStart c 0 k + c.step := winStart_add_one c 0 k
    refine le_min ?_ (le_of_lt (hstarts (k + 1) hk))
    unfold ChunkCtx.step at e1
    omega

/-- C3 witness: on `chunkSize = 3`, `overlap = 1` with 5 tokens, the first
chunk starts at 0 and the last ends at `totalTokens = 5`. -/
theorem c3_coverage_witness :
    (0 : Int) ≤ (sampleCtx [10, 11, 12, 13, 14] 3 1).overlap ∧
    (sampleCtx [10, 11, 12, 13, 14] 3 1).overlap <
      (sampleCtx [10, 11, 12, 13, 14] 3 1).chunk_size ∧
    (0 : Int) < (sampleCtx [10, 11, 12, 13, 14] 3 1).total_tokens ∧
    chunk_text (sampleCtx [10, 11, 12, 13, 14] 3 1) =
      some [sampleChunk 0 3 0 3, sampleChunk 1 3 2 5] ∧
    (∃ ch0, ([sampleChunk 0 3 0 3, sampleChunk 1 3 2 5] : List Chunk).head? = some ch0 ∧
      ch0.startToken = 0) ∧
    (∃ chN, ([sampleChunk 0 3 0 3, sampleChunk 1 3 2 5] : List Chunk).getLast? = some chN ∧
      chN.endToken = (sampleCtx [10, 11, 12, 13, 14] 3 1).total_tokens) := by
  have h := c3_coverage (sampleCtx [10, 11, 12, 13, 14] 3 1) (by decide) (by decide)
    (by decide) [sampleChunk 0 3 0 3, sampleChunk 1 3 2 5] (by decide)
  exact ⟨by decide, by decide, by decide, by decide, h.1, h.2.1⟩

/-- C4 counterexample: with `overlap = chunkSize = 3` (an invalid
configuration per the claim) and 2 tokens, `chunk_text` does not fail with
any error: it returns a non-empty chunk list.  The code contains no
configuration validation at all. -/
theorem c4_counterexample :
    (sampleCtx [10, 11] 3 3).chunk_size ≤ (sampleCtx [10, 11] 3 3).overlap ∧
    chunk_text (sampleCtx [10, 11] 3 3) = some [sampleChunk 0 2 0 2] := by
  exact ⟨by decide, by decide⟩

/-- C4 amended: `chunk_text` performs no configuration validation and raises
no `InvalidConfiguration`.  With `overlap ≥ chunkSize`: an empty token
sequence still yields `some []`, a token sequence with
`0 < totalTokens ≤ chunkSize` still yields its normal single chunk, and
only when `totalTokens > chunkSize` does the call fail to return — because
the window loop never terminates, not because of an error. -/
theorem c4_no_validation (c : ChunkCtx) (hcfg : c.chunk_size ≤ c.overlap) :
    (c.tokens = [] → chunk_text c = some []) ∧
    (0 < c.total_tokens → c.total_tokens ≤ c.chunk_size →
      chunk_text c = some [mkChunk c 0 c.total_tokens 0]) ∧
    (0 < c.total_tokens → c.chunk_size < c.total_tokens →
      ∀ fuel : Nat, chunkLoop c fuel 0 0 = none) := by
  refine ⟨fun h => chunk_text_of_tokens_nil c h, fun hpos hle => ?_, fun hpos hlt fuel => ?_⟩
  · have hmin : min ((0 : Int) + c.chunk_size) c.total_tokens = c.total_tokens := by omega
    rw [chunk_text, chunkLoop, if_pos hpos]
    simp only [hmin, if_pos le_rfl]
  · exact chunkLoop_none c hcfg hlt hpos fuel 0 0 le_rfl

/-- C4 amended witness: `overlap = chunkSize = 3` with 2 tokens returns the
normal single chunk, and with 5 tokens the loop never finishes. -/
theorem c4_no_validation_witness :
    (sampleCtx [10, 11] 3 3).chunk_size ≤ (sampleCtx [10, 11] 3 3).overlap ∧
    chunk_text (sampleCtx [10, 11] 3 3) =
      some [mkChunk (sampleCtx [10, 11] 3 3) 0 (sampleCtx [10, 11] 3 3).total_tokens 0] ∧
    (sampleCtx [10, 11, 12, 13, 14] 3 3).chunk_size ≤ (sampleCtx [10, 11, 12, 13, 14] 3 3).overlap ∧
    chunkLoop (sampleCtx [10, 11, 12, 13, 14] 3 3) 1000 0 0 = none := by
  refine ⟨by decide, ?_, by decide, ?_⟩
  · exact (c4_no_validation (sampleCtx [10, 11] 3 3) (by decide)).2.1 (by decide) (by decide)
  · exact (c4_no_validation (sampleCtx [10, 11, 12, 13, 14] 3 3) (by decide)).2.2
      (by decide) (by decide) 1000

/-- C5 counterexample: the window loop does not terminate for every input
regardless of step size — with `chunkSize = 1`, `overlap = 1` (step `0`)
and 2 tokens, no amount of fuel finishes the loop. -/
theorem c5_counterexample : ¬ loopHalts (sampleCtx [10, 11] 1 1) := by
  rintro ⟨fuel, l, h⟩
  rw [chunkLoop_none (sampleCtx [10, 11] 1 1) (by decide) (by decide) (by decide)
    fuel 0 0 le_rfl] at h
  cases h

/-- C5 amended: the window loop terminates for every input whose step
`chunkSize - overlap` is positive (`0 ≤ overlap < chunkSize`); in
particular, for `chunkSize = 50`, `overlap = 49` and any `totalTokens > 50`
it terminates and produces `totalTokens - 50 + 1` windows. -/
theorem c5_termination (c : ChunkCtx) (h0 : 0 ≤ c.overlap)
    (h1 : c.overlap < c.chunk_size) :
    (∃ l, chunk_text c = some l) ∧
    (c.chunk_size = 50 → c.overlap = 49 → 50 < c.total_tokens →
      ∃ l, chunk_text c = some l ∧ l.length = c.tokens.length - 50 + 1) := by
  have hterm : ∃ l, chunk_text c = some l := by
    apply chunkLoop_total c h1
    unfold ChunkCtx.total_tokens
    omega
  refine ⟨hterm, fun h50 h49 htot => ?_⟩
  obtain ⟨l, hl⟩ := hterm
  refine ⟨l, hl, ?_⟩
  obtain ⟨n, hn1, rfl, hcond, hlast, hstarts⟩ :=
    chunk_text_closed_form c h0 h1 (by omega) l hl
  simp only [List.length_map, List.length_range]
  have hstep : c.step = 1 := by unfold ChunkCtx.step; omega
  have hws : ∀ k : Nat, winStart c 0 k = (k : Int) := by
    intro k
    unfold winStart
    rw [hstep]
    omega
  have htt : c.total_tokens = (c.tokens.length : Int) := rfl
  rcases Nat.lt_or_ge n 2 with hn2 | hn2
  · obtain rfl : n = 1 := by omega
    rw [hws 0, h50] at hlast
    omega
  · have hc := hcond (n - 2) (by omega)
    rw [hws (n - 2), h50] at hc
    rw [hws (n - 1), h50] at hlast
    omega

/-- C5 amended witness: `chunkSize = 50`, `overlap = 49` on a 52-token
input terminates with `52 - 50 + 1 = 3` windows. -/
theorem c5_termination_witness :
    (0 : Int) ≤ (sampleCtx (List.replicate 52 0) 50 49).overlap ∧
    (sampleCtx (List.replicate 52 0) 50 49).overlap <
      (sampleCtx (List.replicate 52 0) 50 49).chunk_size ∧
    ∃ l, chunk_text (sampleCtx (List.replicate 52 0) 50 49) = some l ∧
      l.length = (sampleCtx (List.replicate 52 0) 50 49).tokens.length - 50 + 1 := by
  refine ⟨by decide, by decide, ?_⟩
  exact (c5_termination (sampleCtx (List.replicate 52 0) 50 49) (by decide)
    (by decide)).2 (by decide) (by decide) (by decide)

/-- C8: when the encoded text has zero tokens, `chunk_text` returns the
empty chunk sequence (and no error of any kind). -/
theorem c8_empty_input (c : ChunkCtx) (h : c.tokens = []) : chunk_text c = some [] :=
  chunk_text_of_tokens_nil c h

/-- C8 witness: a tokenizer returning no tokens yields `some []`. -/
theorem c8_empty_input_witness :
    (sampleCtx [] 512 50).tokens = [] ∧ chunk_text (sampleCtx [] 512 50) = some [] :=
  ⟨rfl, c8_empty_input (sampleCtx [] 512 50) rfl⟩

/-- C9: whenever `chunk_text` returns a chunk list, its `chunkIndex` values
are exactly `0 .. N-1` in order, and every `chunkId` is
`documentId ++ "#chunk#" ++ chunkIndex`. -/
theorem c9_chunk_identity (c : ChunkCtx) (l : List Chunk) (hl : chunk_text c = some l) :
    l.map Chunk.chunkIndex = List.range l.length ∧
    ∀ ch ∈ l, ch.chunkId = c.document_id ++ "#chunk#" ++ toString ch.chunkIndex := by
  rw [chunk_text] at hl
  obtain ⟨hmap, hid⟩ := chunkLoop_indices c (c.tokens.length + 1) 0 0 l hl
  refine ⟨?_, hid⟩
  rw [hmap, List.range_eq_range']

/-- C9 witness: on `chunkSize = 2`, `overlap = 0` with 3 tokens, the indices
are `[0, 1]` and the ids are `doc-1#chunk#0`, `doc-1#chunk#1`. -/
theorem c9_chunk_identity_witness :
    chunk_text (sampleCtx [5, 6, 7] 2 0) =
      some [sampleChunk 0 2 0 2, sampleChunk 1 1 2 3] ∧
    ([sampleChunk 0 2 0 2, sampleChunk 1 1 2 3] : List Chunk).map Chunk.chunkIndex =
      List.range 2 := by
  refine ⟨by decide, ?_⟩
  exact (c9_chunk_identity (sampleCtx [5, 6, 7] 2 0)
    [sampleChunk 0 2 0 2, sampleChunk 1 1 2 3] (by decide)).1

theorem String.length_pos_of_ne_empty {s : String} (h : s ≠ "") : 0 < s.length := by
  cases s with
  | mk data =>
    cases data with
    | nil => exact absurd rfl h
    | cons a as => simp [String.length]

theorem buildPageMapFrom_length (pages : List PageData) :
    ∀ pos : Nat, (buildPageMapFrom pos pages).length = pages.length := by
  induction pages with
  | nil => intro pos; rfl
  | cons page rest ih => intro pos; simp [buildPageMapFrom, ih]

theorem buildPageMapFrom_start_le_end (pages : List PageData) :
    ∀ pos : Nat, ∀ q ∈ buildPageMapFrom pos pages, q.start_pos ≤ q.end_pos := by
  induction pages with
  | nil => intro pos q hq; simp [buildPageMapFrom] at hq
  | cons page rest ih =>
    intro pos q hq
    rw [buildPageMapFrom] at hq
    rcases List.mem_cons.mp hq with h | h
    · subst h
      exact Nat.le_add_right _ _
    · exact ih _ q h

theorem buildPageMapFrom_cons_pos (page : PageData) (rest : List PageData) {pos : Nat}
    (hpos : 0 < pos) :
    buildPageMapFrom pos (page :: rest) =
      { start_pos := pos + 2, end_pos := pos + 2 + (page.text.getD "").length,
        page_number := page.pageNumber.getD 1 } ::
        buildPageMapFrom (pos + 2 + (page.text.getD "").length) rest := by
  simp only [buildPageMapFrom]
  rw [if_pos hpos]

/-- With a positive running offset, `build_page_map`'s loop always accounts
the 2-character separator: all spans start at `pos + 2` or later, the head
starts exactly at `pos + 2`, and consecutive spans satisfy
`end_pos + 2 = start_pos`. -/
theorem buildPageMapFrom_chain (pages : List PageData) :
    ∀ pos : Nat, 0 < pos →
      (∀ q ∈ buildPageMapFrom pos pages, pos + 2 ≤ q.start_pos) ∧
      (∀ q, (buildPageMapFrom pos pages).head? = some q → q.start_pos = pos + 2) ∧
      List.Chain' (fun a b => a.end_pos + 2 = b.start_pos) (buildPageMapFrom pos pages) := by
  induction pages with
  | nil =>
    intro pos hpos
    refine ⟨?_, ?_, ?_⟩ <;> simp [buildPageMapFrom]
  | cons page rest ih =>
    intro pos hpos
    rw [buildPageMapFrom_cons_pos page rest hpos]
    obtain ⟨ih1, ih2, ih3⟩ := ih (pos + 2 + (page.text.getD "").length) (by omega)
    refine ⟨?_, ?_, ?_⟩
    · intro q hq
      rcases List.mem_cons.mp hq with h | h
      · subst h; exact le_refl _
      · have := ih1 q h; omega
    · intro q hq
      rw [List.head?_cons] at hq
      cases Option.some.inj hq
      rfl
    · rw [List.chain'_cons']
      refine ⟨?_, ih3⟩
      intro y hy
      rw [Option.mem_def] at hy
      have := ih2 y hy
      show pos + 2 + (page.text.getD "").length + 2 = y.start_pos
      omega

theorem build_page_map_cons (p : PageData) (rest : List PageData) :
    build_page_map (p :: rest) =
      { start_pos := 0, end_pos := (p.text.getD "").length,
        page_number := p.pageNumber.getD 1 } ::
        buildPageMapFrom (p.text.getD "").length rest := by
  simp only [build_page_map, buildPageMapFrom]
  rw [if_neg (by omega)]
  simp

/-- With a non-empty first page, the spans of `build_page_map` are chained:
each non-final span's `end_pos + 2` is the next span's `start_pos`. -/
theorem build_page_map_chain (p : PageData) (rest : List PageData)
    (hp : p.text.getD "" ≠ "") :
    List.Chain' (fun a b => a.end_pos + 2 = b.start_pos) (build_page_map (p :: rest)) := by
  have hlen : 0 < (p.text.getD "").length := String.length_pos_of_ne_empty hp
  rw [build_page_map_cons, List.chain'_cons']
  obtain ⟨ih1, ih2, ih3⟩ := buildPageMapFrom_chain rest _ hlen
  refine ⟨?_, ih3⟩
  intro y hy
  rw [Option.mem_def] at hy
  have := ih2 y hy
  show (p.text.getD "").length + 2 = y.start_pos
  omega

theorem intercalate_go_length (s : String) :
    ∀ (ts : List String) (acc : String),
      (String.intercalate.go acc s ts).length =
        acc.length + (ts.map (fun u => s.length + u.length)).sum := by
  intro ts
  induction ts with
  | nil => intro acc; simp [String.intercalate.go]
  | cons a as ih =>
    intro acc
    rw [String.intercalate.go, ih]
    simp [String.length_append]
    omega

theorem intercalate_length (s t : String) (ts : List String) :
    (String.intercalate s (t :: ts)).length =
      t.length + (ts.map (fun u => s.length + u.length)).sum := by
  rw [String.intercalate, intercalate_go_length]

theorem getLast?_cons_of_ne_nil {α : Type} (a : α) {l : List α} (h : l ≠ []) :
    (a :: l).getLast? = l.getLast? := by
  cases l with
  | nil => exact absurd rfl h
  | cons b t => exact List.getLast?_cons_cons

/-- With a positive running offset, the loop's final span ends at the offset
plus `2 + len(text)` summed over all remaining pages. -/
theorem buildPageMapFrom_getLast_pos (pages : List PageData) :
    ∀ pos : Nat, 0 < pos → pages ≠ [] →
      ∃ q, (buildPageMapFrom pos pages).getLast? = some q ∧
        q.end_pos = pos + (pages.map (fun pg => 2 + (pg.text.getD "").length)).sum := by
  induction pages with
  | nil => intro pos _ h; exact absurd rfl h
  | cons page rest ih =>
    intro pos hpos _
    rw [buildPageMapFrom_cons_pos page rest hpos]
    rcases rest with _ | ⟨r2, rrest⟩
    · refine ⟨_, rfl, ?_⟩
      show pos + 2 + (page.text.getD "").length = _
      simp
      omega
    · obtain ⟨q, hq1, hq2⟩ := ih (pos + 2 + (page.text.getD "").length) (by omega) (by simp)
      have hne : buildPageMapFrom (pos + 2 + (page.text.getD "").length) (r2 :: rrest) ≠ [] := by
        intro hcontra
        have := buildPageMapFrom_length (r2 :: rrest) (pos + 2 + (page.text.getD "").length)
        rw [hcontra] at this
        simp at this
      refine ⟨q, ?_, ?_⟩
      · rw [getLast?_cons_of_ne_nil _ hne]
        exact hq1
      · rw [hq2]
        simp
        omega

/-- With a non-empty first page, the final span of `build_page_map` ends at
the length of the page texts joined with the 2-character `'\n\n'`
separator. -/
theorem build_page_map_getLast (p : PageData) (rest : List PageData)
    (hp : p.text.getD "" ≠ "") :
    ∃ q, (build_page_map (p :: rest)).getLast? = some q ∧
      q.end_pos = (String.intercalate "\n\n"
        ((p :: rest).map (fun pg => pg.text.getD ""))).length := by
  have hlen : 0 < (p.text.getD "").length := String.length_pos_of_ne_empty hp
  rw [build_page_map_cons, List.map_cons, intercalate_length]
  rcases rest with _ | ⟨r2, rrest⟩
  · simp only [buildPageMapFrom]
    refine ⟨⟨0, (p.text.getD "").length, p.pageNumber.getD 1⟩, rfl, ?_⟩
    simp
  · obtain ⟨q, hq1, hq2⟩ := buildPageMapFrom_getLast_pos (r2 :: rrest) _ hlen (by simp)
    have hne : buildPageMapFrom (p.text.getD "").length (r2 :: rrest) ≠ [] := by
      intro hcontra
      have := buildPageMapFrom_length (r2 :: rrest) (p.text.getD "").length
      rw [hcontra] at this
      simp at this
    refine ⟨q, ?_, ?_⟩
    · rw [getLast?_cons_of_ne_nil _ hne]
      exact hq1
    · rw [hq2, List.map_map]
      have h2 : List.map (fun pg : PageData => 2 + (pg.text.getD "").length) (r2 :: rrest) =
          List.map ((fun u => "\n\n".length + u.length) ∘ fun pg : PageData => pg.text.getD "")
            (r2 :: rrest) := List.map_congr_left (fun a _ => rfl)
      rw [h2]

/-- Spans of a chained page map are ordered: any earlier span ends (2 before)
no later than any later span starts. -/
theorem span_ordering (m : List PageInfo) (d : PageInfo)
    (hchain : List.Chain' (fun a b => a.end_pos + 2 = b.start_pos) m)
    (hse : ∀ q ∈ m, q.start_pos ≤ q.end_pos) :
    ∀ i j : Nat, j < m.length → i < j →
      ((m.get? i).getD d).end_pos + 2 ≤ ((m.get? j).getD d).start_pos := by
  have hg : ∀ k : Nat, k + 1 < m.length →
      ((m.get? k).getD d).end_pos + 2 = ((m.get? (k + 1)).getD d).start_pos := by
    intro k hk
    have h := List.chain'_iff_get.mp hchain k (by omega)
    rw [List.get?_eq_get (by omega : k < m.length),
      List.get?_eq_get (by omega : k + 1 < m.length)]
    simpa using h
  have hmem : ∀ k : Nat, k < m.length → ((m.get? k).getD d) ∈ m := by
    intro k hk
    rw [List.get?_eq_get hk]
    simp only [Option.getD_some]
    exact List.get_mem _ _ _
  intro i j
  induction j with
  | zero => intro hj hij; omega
  | succ j ihj =>
    intro hj hij
    rcases Nat.lt_succ_iff_lt_or_eq.mp hij with h | h
    · have h1 := ihj (by omega) h
      have h2 := hse _ (hmem j (by omega))
      have h3 := hg j hj
      omega
    · subst h
      exact le_of_eq (hg i hj)

theorem findPage_eq_none (off : Nat) :
    ∀ m : List PageInfo, (∀ q ∈ m, ¬(q.start_pos ≤ off ∧ off < q.end_pos)) →
      findPage off m = none := by
  intro m
  induction m with
  | nil => intro _; rfl
  | cons p rest ih =>
    intro h
    rw [findPage, if_neg (h p (List.mem_cons_self p rest))]
    exact ih (fun q hq => h q (List.mem_cons_of_mem p hq))

theorem findPage_eq_find? (off : Nat) :
    ∀ m : List PageInfo,
      findPage off m =
        (m.find? (fun p => decide (p.start_pos ≤ off) && decide (off < p.end_pos))).map
          PageInfo.page_number := by
  intro m
  induction m with
  | nil => rfl
  | cons p rest ih =>
    by_cases h : p.start_pos ≤ off ∧ off < p.end_pos
    · rw [findPage, if_pos h, List.find?_cons_of_pos _ (by simp [h.1, h.2])]
      rfl
    · have hfalse : (fun q : PageInfo =>
          decide (q.start_pos ≤ off) && decide (off < q.end_pos)) p = false := by
        show (decide (p.start_pos ≤ off) && decide (off < p.end_pos)) = false
        rw [← Bool.decide_and]
        exact decide_eq_false h
      have hstep : List.find?
          (fun q : PageInfo => decide (q.start_pos ≤ off) && decide (off < q.end_pos))
          (p :: rest) =
          List.find?
            (fun q : PageInfo => decide (q.start_pos ≤ off) && decide (off < q.end_pos))
            rest := by
        simp only [List.find?, hfalse]
      rw [findPage, if_neg h, hstep, ih]

/-- `get_page_number_for_position` agrees with the specification's wording
of the page lookup (first matching span via `find?`, else last, else 1). -/
theorem get_page_number_eq_spec_general (off : Nat) (m : List PageInfo) :
    get_page_number_for_position off m = pageForOffset_spec off m := by
  rw [get_page_number_for_position, pageForOffset_spec, findPage_eq_find?]
  cases m.find? (fun p => decide (p.start_pos ≤ off) && decide (off < p.end_pos)) <;> rfl

theorem gp_two_first (L1 L2 : Nat) (n1 n2 : Int) (off : Nat) (hoff : off < L1) :
    get_page_number_for_position off [⟨0, L1, n1⟩, ⟨L1 + 2, L1 + 2 + L2, n2⟩] = n1 := by
  rw [get_page_number_for_position, findPage, if_pos ⟨Nat.zero_le off, hoff⟩]

theorem gp_two_last (L1 L2 : Nat) (n1 n2 : Int) (off : Nat) (hoff : L1 ≤ off) :
    get_page_number_for_position off [⟨0, L1, n1⟩, ⟨L1 + 2, L1 + 2 + L2, n2⟩] = n2 := by
  rw [get_page_number_for_position, findPage, if_neg (by simp; omega), findPage]
  by_cases h2 : L1 + 2 ≤ off ∧ off < L1 + 2 + L2
  · rw [if_pos h2]
  · rw [if_neg h2, findPage]
    exact rfl

theorem build_page_map_two (s1 s2 : String) (n1 n2 : Int) (h1 : s1 ≠ "") :
    build_page_map [⟨some s1, some n1⟩, ⟨some s2, some n2⟩] =
      [⟨0, s1.length, n1⟩, ⟨s1.length + 2, s1.length + 2 + s2.length, n2⟩] := by
  have hlen : 0 < s1.length := String.length_pos_of_ne_empty h1
  rw [build_page_map_cons, buildPageMapFrom_cons_pos _ _ (by simpa using hlen)]
  simp only [buildPageMapFrom]
  simp

/-- C6 counterexample: with an empty-texted first page, `build_page_map`
adds no separator while the running offset is still `0`, so the two spans
both start at `0` — the contiguity law `end_pos_i + 2 = start_pos_{i+1}`
fails, and the final span's `end_pos` is not the joined text length. -/
theorem c6_counterexample :
    ∃ qi qj : PageInfo,
      (build_page_map [⟨some "", some 1⟩, ⟨some "ab", some 2⟩]).get? 0 = some qi ∧
      (build_page_map [⟨some "", some 1⟩, ⟨some "ab", some 2⟩]).get? 1 = some qj ∧
      qi.end_pos + 2 ≠ qj.start_pos ∧
      (∃ qN, (build_page_map [⟨some "", some 1⟩, ⟨some "ab", some 2⟩]).getLast? = some qN ∧
        qN.end_pos ≠ (String.intercalate "\n\n" ["", "ab"]).length) := by
  refine ⟨⟨0, 0, 1⟩, ⟨0, 2, 2⟩, by decide, by decide, by decide, ⟨0, 2, 2⟩, by decide, by decide⟩

/-- C6 amended: for every page sequence whose FIRST page has non-empty
text, the spans of `build_page_map` are contiguous and strictly ordered by
start offset — `end_pos_i + 2 = start_pos_{i+1}` for every non-final span —
and the final span's `end_pos` equals the length of the page texts joined
by the two-character separator. -/
theorem c6_spans_contiguous (p : PageData) (rest : List PageData)
    (hp : p.text.getD "" ≠ "") :
    (∀ i : Nat, ∀ qi qj : PageInfo,
      (build_page_map (p :: rest)).get? i = some qi →
      (build_page_map (p :: rest)).get? (i + 1) = some qj →
      qi.end_pos + 2 = qj.start_pos ∧ qi.start_pos < qj.start_pos) ∧
    (∃ q, (build_page_map (p :: rest)).getLast? = some q ∧
      q.end_pos = (String.intercalate "\n\n"
        ((p :: rest).map (fun pg => pg.text.getD ""))).length) := by
  constructor
  · intro i qi qj hqi hqj
    obtain ⟨hi, rfl⟩ := List.get?_eq_some.mp hqi
    obtain ⟨hj, rfl⟩ := List.get?_eq_some.mp hqj
    have hg := List.chain'_iff_get.mp (build_page_map_chain p rest hp) i (by omega)
    have heq : ((build_page_map (p :: rest)).get ⟨i, hi⟩).end_pos + 2 =
        ((build_page_map (p :: rest)).get ⟨i + 1, hj⟩).start_pos := hg
    refine ⟨heq, ?_⟩
    have hse := buildPageMapFrom_start_le_end (p :: rest) 0
      ((build_page_map (p :: rest)).get ⟨i, hi⟩) (List.get_mem _ _ _)
    omega
  · exact build_page_map_getLast p rest hp

/-- C6 amended witness: two non-empty pages `"abc"`, `"ab"` give spans
`[0,3)` and `[5,7)`: contiguous (`3 + 2 = 5`) and the last span ends at the
joined length `7`. -/
theorem c6_spans_contiguous_witness :
    ((⟨some "abc", some 1⟩ : PageData).text.getD "" ≠ "") ∧
    (build_page_map [⟨some "abc", some 1⟩, ⟨some "ab", some 2⟩]).get? 0 = some ⟨0, 3, 1⟩ ∧
    (build_page_map [⟨some "abc", some 1⟩, ⟨some "ab", some 2⟩]).get? 1 = some ⟨5, 7, 2⟩ ∧
    ((⟨0, 3, 1⟩ : PageInfo).end_pos + 2 = (⟨5, 7, 2⟩ : PageInfo).start_pos ∧
      (⟨0, 3, 1⟩ : PageInfo).start_pos < (⟨5, 7, 2⟩ : PageInfo).start_pos) ∧
    (∃ q, (build_page_map [⟨some "abc", some 1⟩, ⟨some "ab", some 2⟩]).getLast? = some q ∧
      q.end_pos = (String.intercalate "\n\n"
        (([⟨some "abc", some 1⟩, ⟨some "ab", some 2⟩] : List PageData).map
          (fun pg => pg.text.getD ""))).length) := by
  refine ⟨by decide, by decide, by decide, ?_, ?_⟩
  · exact (c6_spans_contiguous ⟨some "abc", some 1⟩ [⟨some "ab", some 2⟩] (by decide)).1
      0 ⟨0, 3, 1⟩ ⟨5, 7, 2⟩ (by decide) (by decide)
  · exact (c6_spans_contiguous ⟨some "abc", some 1⟩ [⟨some "ab", some 2⟩] (by decide)).2

/-- C7: `get_page_number_for_position` returns the page number of the first
span containing the offset, else the last span's page number, else `1`
(shown by agreement with the spec-worded lookup for every offset and
index); and on a two-page index with non-empty texts of lengths `L1`, `L2`:
offsets `0` and `L1 - 1` map to page `1`, offsets `L1 + 2` and
`L1 + 2 + L2 + 100` map to page `2`. -/
theorem c7_page_lookup (off : Nat) (m : List PageInfo) (s1 s2 : String)
    (hs1 : s1 ≠ "") (hs2 : s2 ≠ "") :
    get_page_number_for_position off m = pageForOffset_spec off m ∧
    get_page_number_for_position 0
      (build_page_map [⟨some s1, some 1⟩, ⟨some s2, some 2⟩]) = 1 ∧
    get_page_number_for_position (s1.length - 1)
      (build_page_map [⟨some s1, some 1⟩, ⟨some s2, some 2⟩]) = 1 ∧
    get_page_number_for_position (s1.length + 2)
      (build_page_map [⟨some s1, some 1⟩, ⟨some s2, some 2⟩]) = 2 ∧
    get_page_number_for_position (s1.length + 2 + s2.length + 100)
      (build_page_map [⟨some s1, some 1⟩, ⟨some s2, some 2⟩]) = 2 := by
  have hL1 : 0 < s1.length := String.length_pos_of_ne_empty hs1
  have hL2 : 0 < s2.length := String.length_pos_of_ne_empty hs2
  rw [build_page_map_two s1 s2 1 2 hs1]
  refine ⟨get_page_number_eq_spec_general off m, ?_, ?_, ?_, ?_⟩
  · exact gp_two_first _ _ _ _ _ hL1
  · exact gp_two_first _ _ _ _ _ (by omega)
  · exact gp_two_last _ _ _ _ _ (by omega)
  · exact gp_two_last _ _ _ _ _ (by omega)

/-- C7 witness: instancing the lookup at a concrete offset and index and at
the two-page index for `"abc"`, `"ab"`. -/
theorem c7_page_lookup_witness :
    ("abc" : String) ≠ "" ∧ ("ab" : String) ≠ "" ∧
    get_page_number_for_position 5 [] = pageForOffset_spec 5 [] ∧
    get_page_number_for_position 0
      (build_page_map [⟨some "abc", some 1⟩, ⟨some "ab", some 2⟩]) = 1 ∧
    get_page_number_for_position ("abc".length + 2)
      (build_page_map [⟨some "abc", some 1⟩, ⟨some "ab", some 2⟩]) = 2 := by
  have h := c7_page_lookup 5 [] "abc" "ab" (by decide) (by decide)
  exact ⟨by decide, by decide, h.1, h.2.1, h.2.2.2.1⟩

/-- C10: in a page map built from pages with non-empty texts, an offset
falling in the two-character separator gap between span `i` and span `i+1`
lies in no span, so `get_page_number_for_position` falls through to the
LAST span's page number; in particular for two non-empty pages of lengths
`L1` and `L2`, offsets `L1` and `L1 + 1` both map to page `2`. -/
theorem c10_separator_gap (pages : List PageData) (hlen : 2 ≤ pages.length)
    (hall : ∀ p ∈ pages, p.text.getD "" ≠ "")
    (i : Nat) (qi qj : PageInfo)
    (hqi : (build_page_map pages).get? i = some qi)
    (hqj : (build_page_map pages).get? (i + 1) = some qj)
    (off : Nat) (hoff1 : qi.end_pos ≤ off) (hoff2 : off < qj.start_pos) :
    (∀ q ∈ build_page_map pages, ¬(q.start_pos ≤ off ∧ off < q.end_pos)) ∧
    (∃ qN, (build_page_map pages).getLast? = some qN ∧
      get_page_number_for_position off (build_page_map pages) = qN.page_number) ∧
    (∀ s1 s2 : String, s1 ≠ "" → s2 ≠ "" →
      get_page_number_for_position s1.length
        (build_page_map [⟨some s1, some 1⟩, ⟨some s2, some 2⟩]) = 2 ∧
      get_page_number_for_position (s1.length + 1)
        (build_page_map [⟨some s1, some 1⟩, ⟨some s2, some 2⟩]) = 2) := by
  rcases pages with _ | ⟨p, rest⟩
  · simp at hlen
  have hchain := build_page_map_chain p rest (hall p (List.mem_cons_self p rest))
  have hse : ∀ q ∈ build_page_map (p :: rest), q.start_pos ≤ q.end_pos :=
    fun q hq => buildPageMapFrom_start_le_end (p :: rest) 0 q hq
  have horder := span_ordering (build_page_map (p :: rest)) ⟨0, 0, 1⟩ hchain hse
  obtain ⟨hi, rfl⟩ := List.get?_eq_some.mp hqi
  obtain ⟨hj, rfl⟩ := List.get?_eq_some.mp hqj
  have higet : ((build_page_map (p :: rest)).get? i).getD ⟨0, 0, 1⟩ =
      (build_page_map (p :: rest)).get ⟨i, hi⟩ := by
    rw [List.get?_eq_get hi]
    rfl
  have hi1get : ((build_page_map (p :: rest)).get? (i + 1)).getD ⟨0, 0, 1⟩ =
      (build_page_map (p :: rest)).get ⟨i + 1, hj⟩ := by
    rw [List.get?_eq_get hj]
    rfl
  have hfirst : ∀ q ∈ build_page_map (p :: rest), ¬(q.start_pos ≤ off ∧ off < q.end_pos) := by
    intro q hq hcontra
    obtain ⟨⟨j, hjlen⟩, rfl⟩ := List.mem_iff_get.mp hq
    have hjget : ((build_page_map (p :: rest)).get? j).getD ⟨0, 0, 1⟩ =
        (build_page_map (p :: rest)).get ⟨j, hjlen⟩ := by
      rw [List.get?_eq_get hjlen]
      rfl
    rcases Nat.lt_trichotomy j i with hlt | heq | hgt
    · have h1 := horder j i (by omega) hlt
      rw [hjget, higet] at h1
      have h2 := hse _ (List.get_mem _ i hi)
      omega
    · subst heq
      have e : (build_page_map (p :: rest)).get ⟨j, hjlen⟩ =
          (build_page_map (p :: rest)).get ⟨j, hi⟩ := rfl
      rw [e] at hcontra
      omega
    · rcases Nat.lt_or_ge (i + 1) j with hgt2 | hle2
      · have h1 := horder (i + 1) j (by omega) hgt2
        rw [hjget, hi1get] at h1
        have h2 := hse _ (List.get_mem _ (i + 1) hj)
        omega
      · have heq2 : j = i + 1 := by omega
        subst heq2
        have e : (build_page_map (p :: rest)).get ⟨i + 1, hjlen⟩ =
            (build_page_map (p :: rest)).get ⟨i + 1, hj⟩ := rfl
        rw [e] at hcontra
        omega
  refine ⟨hfirst, ?_, ?_⟩
  · have hnone := findPage_eq_none off (build_page_map (p :: rest)) hfirst
    have hnenil : build_page_map (p :: rest) ≠ [] := by
      intro hc
      have hL := buildPageMapFrom_length (p :: rest) 0
      rw [build_page_map] at hc
      rw [hc] at hL
      simp at hL
    obtain ⟨qN, hqN⟩ : ∃ qN, (build_page_map (p :: rest)).getLast? = some qN := by
      cases hq : (build_page_map (p :: rest)).getLast? with
      | none => exact absurd (List.getLast?_eq_none_iff.mp hq) hnenil
      | some q => exact ⟨q, rfl⟩
    refine ⟨qN, hqN, ?_⟩
    rw [get_page_number_for_position, hnone, hqN]
  · intro s1 s2 hs1 hs2
    have hL1 := String.length_pos_of_ne_empty hs1
    rw [build_page_map_two s1 s2 1 2 hs1]
    exact ⟨gp_two_last _ _ _ _ _ (by omega), gp_two_last _ _ _ _ _ (by omega)⟩

/-- C10 witness: for pages `"abc"`, `"ab"`, the separator-gap offset `3`
(spans are `[0,3)` and `[5,7)`) falls through to the last page's number,
`2`. -/
theorem c10_separator_gap_witness :
    2 ≤ ([⟨some "abc", some 1⟩, ⟨some "ab", some 2⟩] : List PageData).length ∧
    (∀ p ∈ ([⟨some "abc", some 1⟩, ⟨some "ab", some 2⟩] : List PageData),
      p.text.getD "" ≠ "") ∧
    (build_page_map [⟨some "abc", some 1⟩, ⟨some "ab", some 2⟩]).get? 0 = some ⟨0, 3, 1⟩ ∧
    (build_page_map [⟨some "abc", some 1⟩, ⟨some "ab", some 2⟩]).get? 1 = some ⟨5, 7, 2⟩ ∧
    (⟨0, 3, 1⟩ : PageInfo).end_pos ≤ 3 ∧ (3 : Nat) < (⟨5, 7, 2⟩ : PageInfo).start_pos ∧
    (∃ qN, (build_page_map [⟨some "abc", some 1⟩, ⟨some "ab", some 2⟩]).getLast? = some qN ∧
      get_page_number_for_position 3
        (build_page_map [⟨some "abc", some 1⟩, ⟨some "ab", some 2⟩]) = qN.page_number) := by
  refine ⟨by decide, by decide, by decide, by decide, by decide, by decide, ?_⟩
  exact (c10_separator_gap [⟨some "abc", some 1⟩, ⟨some "ab", some 2⟩] (by decide) (by decide)
    0 ⟨0, 3, 1⟩ ⟨5, 7, 2⟩ (by decide) (by decide) 3 (by decide) (by decide)).2.1

end ExtractText
